import Mathlib

/-!
Verification of the burst-detection core of `burstshark`
(`src/capture/fifo.rs` and `src/capture/burst.rs`).

Modelling conventions (shallow embedding):
* `f64` times are modelled as exact rationals `ℚ`; the staleness tolerance
  literal `0.0001` becomes `1/10000`.
* Endpoint identities (`IpAddr`, `MacAddr`) are modelled as `Nat` ids; the
  `to_string` used when a `Burst` is built is modelled as the identity on
  those ids.
* Rust `Vec<T>` is modelled as a `List T` together with its tracked
  capacity; `Vec::with_capacity n` is taken to allocate exactly `n` slots.
* `u16`/`u32` counters are modelled as `Nat` (no claim here concerns
  wrap-around).
* The `mpsc` output channel is modelled as an accumulating `List Burst`;
  a channel send never fails in the model (the spec treats the output as
  unbounded).
* Rust panics (`unwrap`, `expect`, `todo!`, out-of-bounds indexing) are
  modelled as an error value of type `Option String` that aborts the
  worker loop, carrying the panic / error message.
-/

namespace BurstShark

/-! ## The FIFO ring buffer (`src/capture/fifo.rs`) -/

/-- Structure `Fifo` from `src/capture/fifo.rs`: a growable circular ring buffer.
`buffer` and `cap` together model the Rust `Vec` (contents plus capacity). -/
structure Fifo (α : Type) where
  buffer : List α
  cap : Nat
  size : Nat
  head : Nat
  tail : Nat

/-- Constructor `Fifo::new`, with its initial capacity of 512. -/
def Fifo.new {α : Type} : Fifo α :=
  { buffer := [], cap := 512, size := 0, head := 0, tail := 0 }

/-- Operation `Fifo::enqueue`.  The first branch is the "logically full" reallocation:
a fresh vector of capacity `size * 2` receives `old[tail..]` then
`old[..tail]`, head resets to 0, size is incremented and tail set to the new
size before the new item is pushed. -/
def Fifo.enqueue {α : Type} (f : Fifo α) (item : α) : Fifo α :=
  if f.tail = f.head ∧ 0 < f.size then
    let newBuffer := f.buffer.drop f.tail ++ f.buffer.take f.tail
    { buffer := newBuffer ++ [item], cap := f.size * 2,
      size := f.size + 1, head := 0, tail := f.size + 1 }
  else if f.buffer.length < f.cap then
    { f with buffer := f.buffer ++ [item],
             tail := (f.tail + 1) % f.cap, size := f.size + 1 }
  else
    { f with buffer := f.buffer.set f.tail item,
             tail := (f.tail + 1) % f.cap, size := f.size + 1 }

/-- Operation `Fifo::peek`: the oldest item, if any.  (An out-of-bounds `buffer[head]`,
a Rust panic, is conflated with `none`; it never occurs on reachable
states.) -/
def Fifo.peek {α : Type} (f : Fifo α) : Option α :=
  if 0 < f.size then f.buffer[f.head]? else none

/-- Operation `Fifo::dequeue`: remove and return the oldest item, advancing `head`
modulo the capacity. -/
def Fifo.dequeue {α : Type} (f : Fifo α) : Option (α × Fifo α) :=
  if 0 < f.size then
    (f.buffer[f.head]?).map fun item =>
      (item, { f with head := (f.head + 1) % f.cap, size := f.size - 1 })
  else none

/-! ### The naive list-queue specification and operation scripts -/

/-- An abstract queue operation: enqueue a value, or dequeue. -/
inductive FifoOp (α : Type) where
  | enq (x : α)
  | deq

/-- Run a script of operations against the ring buffer, recording the
result of every dequeue. -/
def runFifo {α : Type} : List (FifoOp α) → Fifo α → List (Option α)
  | [], _ => []
  | FifoOp.enq x :: ops, f => runFifo ops (f.enqueue x)
  | FifoOp.deq :: ops, f =>
    match f.dequeue with
    | some (x, f') => some x :: runFifo ops f'
    | none => none :: runFifo ops f

/-- Run the same script against a naive unbounded list queue. -/
def runSpec {α : Type} : List (FifoOp α) → List α → List (Option α)
  | [], _ => []
  | FifoOp.enq x :: ops, l => runSpec ops (l ++ [x])
  | FifoOp.deq :: ops, l =>
    match l with
    | x :: rest => some x :: runSpec ops rest
    | [] => none :: runSpec ops []

/-- Coupling invariant between the ring buffer and the list queue it
represents.  Either the backing vector is still being filled for the first
time (or just after a growth) and the live region is `buffer[head..tail)`
without wrap-around, or the vector is at capacity and the live region is
`head..head+size` modulo `cap`. -/
def Fifo.Inv {α : Type} (f : Fifo α) (l : List α) : Prop :=
  f.size = l.length ∧ 2 ≤ f.cap ∧
    ((f.buffer.length < f.cap ∧ f.head + f.size = f.tail ∧
        f.tail = f.buffer.length ∧
        ∀ i, i < l.length → l[i]? = f.buffer[f.head + i]?)
     ∨
     (f.buffer.length = f.cap ∧ f.tail = (f.head + f.size) % f.cap ∧
        f.head < f.cap ∧ f.size ≤ f.cap ∧
        ∀ i, i < l.length → l[i]? = f.buffer[(f.head + i) % f.cap]?))

/-! ## The burst engine (`src/capture/burst.rs`) -/

/-- Times (`f64` seconds) are modelled as exact rationals. -/
abbrev Time := ℚ

/-- Record `IpPacket` from `src/capture/mod.rs`; addresses are modelled as ids. -/
structure IpPacket where
  time : Time
  src : Nat
  dst : Nat
  src_port : Nat
  dst_port : Nat
  data_len : Nat
deriving DecidableEq

/-- Record `WlanPacket` from `src/capture/mod.rs`; MAC addresses modelled as ids. -/
structure WlanPacket where
  time : Time
  src : Nat
  dst : Nat
  data_len : Nat
  seq_number : Nat
deriving DecidableEq

/-- The wired flow key `(IpAddr, IpAddr, Option<u16>, Option<u16>)`. -/
abbrev FlowKey := Nat × Nat × Option Nat × Option Nat

/-- The wireless flow key `(MacAddr, MacAddr)`. -/
abbrev WlanKey := Nat × Nat

/-- Record `Burst` from `src/capture/burst.rs`.  `end_` stands for the Rust field
`end` (a Lean keyword); `src`/`dst` hold the endpoint ids whose string
rendering the Rust code stores. -/
structure Burst where
  completion_time : Time
  src : Nat
  dst : Nat
  src_port : Option Nat
  dst_port : Option Nat
  start : Time
  end_ : Time
  num_packets : Nat
  size : Nat
deriving DecidableEq

/-- Constructor `Burst::from_ip_packet`. -/
def Burst.from_ip_packet (p : IpPacket) (ignore_ports : Bool) : Burst :=
  let ports : Option Nat × Option Nat :=
    if ignore_ports then (none, none) else (some p.src_port, some p.dst_port)
  { completion_time := p.time, src := p.src, dst := p.dst,
    src_port := ports.1, dst_port := ports.2,
    start := p.time, end_ := p.time, num_packets := 1, size := p.data_len }

/-- Constructor `Burst::from_wlan_packet`. -/
def Burst.from_wlan_packet (p : WlanPacket) : Burst :=
  { completion_time := p.time, src := p.src, dst := p.dst,
    src_port := none, dst_port := none,
    start := p.time, end_ := p.time, num_packets := 1, size := p.data_len }

/-- Record `IpFlow`. -/
structure IpFlow where
  current_burst : Option Burst
  ignore_ports : Bool
deriving DecidableEq

/-- Constructor `IpFlow::new`. -/
def IpFlow.new (p : IpPacket) (ignore_ports : Bool) : IpFlow :=
  { ignore_ports := ignore_ports,
    current_burst := some (Burst.from_ip_packet p ignore_ports) }

/-- Operation `IpFlow::add_packet`: extend the open burst, or (when it was just
finalized) start a fresh one from the packet. -/
def IpFlow.add_packet (f : IpFlow) (p : IpPacket) : IpFlow :=
  match f.current_burst with
  | some burst =>
    { f with
      current_burst := some { burst with
        end_ := p.time,
        num_packets := burst.num_packets + 1,
        size := burst.size + p.data_len } }
  | none => { f with current_burst := some (Burst.from_ip_packet p f.ignore_ports) }

/-- Record `WlanFlow`. -/
structure WlanFlow where
  current_burst : Option Burst
  expected_seq_number : Nat
  last_packet_len : Nat
  no_guess : Bool
  max_deviation : Nat
deriving DecidableEq

/-- Constructor `WlanFlow::new`. -/
def WlanFlow.new (p : WlanPacket) (no_guess : Bool) (max_deviation : Nat) : WlanFlow :=
  { current_burst := some (Burst.from_wlan_packet p),
    expected_seq_number := p.seq_number,
    last_packet_len := p.data_len,
    no_guess := no_guess,
    max_deviation := max_deviation }

/-- The panic message of the `todo!` in `WlanFlow::add_packet`. -/
def wlanTodoMsg : String :=
  "not implemented: Fixed it for IP, but Wlan might present some new difficulties with the out-of-order..."

/-- Operation `WlanFlow::add_packet` is `todo!(...)`: it unconditionally panics.  The
panic is modelled as an error result. -/
def WlanFlow.add_packet (_f : WlanFlow) (_p : WlanPacket) : Except String WlanFlow :=
  Except.error wlanTodoMsg

/-- Trait `Flow`: `prev_time` and `send_burst`.  `send_burst` returns
the finalized burst that the Rust code pushes onto the output channel (the
channel itself never fails in the model), or the internal error raised when
the current burst is absent. -/
class Flow (F : Type) where
  prev_time : F → Option Time
  send_burst : F → Time → Except String (F × Burst)

/-- Instance `impl Flow for IpFlow`. -/
instance IpFlow.flowInst : Flow IpFlow where
  prev_time f := f.current_burst.map fun burst => burst.end_
  send_burst f current_time :=
    match f.current_burst with
    | some burst =>
      Except.ok ({ f with current_burst := none },
        { burst with completion_time := current_time })
    | none => Except.error "Internal error: Tried to transmit an empty burst"

/-- Instance `impl Flow for WlanFlow`. -/
instance WlanFlow.flowInst : Flow WlanFlow where
  prev_time f := f.current_burst.map fun burst => burst.end_
  send_burst f current_time :=
    match f.current_burst with
    | some burst =>
      Except.ok ({ f with current_burst := none },
        { burst with completion_time := current_time })
    | none => Except.error "Internal error: Tried to transmit an empty burst"

/-! ### The flow table

The Rust `HashMap` is modelled as an association list; only `entry`-style
update and `get_mut` lookup are ever used, so iteration order is
irrelevant. -/

/-- Lookup in the `HashMap` (association-list model). -/
def alookup {κ β : Type} [DecidableEq κ] : List (κ × β) → κ → Option β
  | [], _ => none
  | (k', v) :: rest, k => if k = k' then some v else alookup rest k

/-- Insert-or-replace in the `HashMap` (association-list model). -/
def aupdate {κ β : Type} [DecidableEq κ] : List (κ × β) → κ → β → List (κ × β)
  | [], k, v => [(k, v)]
  | (k', v') :: rest, k, v =>
    if k = k' then (k, v) :: rest else (k', v') :: aupdate rest k v

/-! ### The eviction sweep (`create_bursts`) -/

/-- One pass of the `while let` loop of `create_bursts`, with explicit fuel
(each iteration dequeues one entry, so `q.size` fuel is always enough).
Returns the final queue, flow table, the bursts sent on the output channel
in order, and—if a panic occurred (`unwrap` on a missing flow, or the
`expect` around `send_burst`)—its message. -/
def create_bursts_loop {κ F : Type} [DecidableEq κ] [Flow F] :
    Nat → Time → Time → Fifo (κ × Time) → List (κ × F) → List Burst →
      Fifo (κ × Time) × List (κ × F) × List Burst × Option String
  | 0, _, _, q, flows, acc => (q, flows, acc, none)
  | fuel + 1, current_time, inactive_time, q, flows, acc =>
    match q.peek with
    | none => (q, flows, acc, none)
    | some (_key, queue_time) =>
      if current_time - queue_time < inactive_time then
        -- not old enough to make a separate burst
        (q, flows, acc, none)
      else
        match q.dequeue with
        | none => (q, flows, acc, some "index out of bounds")
        | some ((key, queue_time), q') =>
          match alookup flows key with
          | none =>
            (q', flows, acc, some "called Option::unwrap on a None value")
          | some flow =>
            if |(Flow.prev_time flow).getD 0 - queue_time| < 1/10000 then
              match Flow.send_burst flow current_time with
              | Except.ok (flow', burst) =>
                create_bursts_loop fuel current_time inactive_time q'
                  (aupdate flows key flow') (acc ++ [burst])
              | Except.error e => (q', flows, acc, some e)
            else
              create_bursts_loop fuel current_time inactive_time q' flows acc

/-- Function `create_bursts`: run the loop with enough fuel to drain the queue. -/
def create_bursts {κ F : Type} [DecidableEq κ] [Flow F]
    (current_time inactive_time : Time) (q : Fifo (κ × Time))
    (flows : List (κ × F)) :
    Fifo (κ × Time) × List (κ × F) × List Burst × Option String :=
  create_bursts_loop q.size current_time inactive_time q flows []

/-! ### The wired worker loop (`start_ip`) -/

/-- The flow key built in `start_ip`:
`(src, dst, (!ignore_ports).then_some(src_port), (!ignore_ports).then_some(dst_port))`. -/
def ipFlowKey (ignore_ports : Bool) (p : IpPacket) : FlowKey :=
  (p.src, p.dst,
    if ignore_ports then none else some p.src_port,
    if ignore_ports then none else some p.dst_port)

/-- The `flows.entry(..).and_modify(..).or_insert_with(..)` update. -/
def touchIp (flows : List (FlowKey × IpFlow)) (key : FlowKey) (p : IpPacket)
    (ignore_ports : Bool) : List (FlowKey × IpFlow) :=
  match alookup flows key with
  | some flow => aupdate flows key (flow.add_packet p)
  | none => aupdate flows key (IpFlow.new p ignore_ports)

/-- An external stimulus of the wired worker loop: a packet received over
the channel, or a receive timeout. -/
inductive IpEvent where
  | packet (p : IpPacket)
  | timeout
deriving DecidableEq

/-- The state owned by the wired worker thread. `outputs` is the sequence
of bursts sent on the output channel so far. -/
structure IpState where
  key_time_queue : Fifo (FlowKey × Time)
  flows : List (FlowKey × IpFlow)
  last_time : Time
  outputs : List Burst

/-- The initial worker state of `start_ip` (`last_time` starts at `0.0`). -/
def ipInit : IpState :=
  { key_time_queue := Fifo.new, flows := [], last_time := 0, outputs := [] }

/-- One iteration of the `start_ip` worker loop.  On a panic inside the
sweep the error message is returned and the touch/enqueue of the packet
does not happen (the thread dies). -/
def ipStep (inactive_time : Time) (ignore_ports : Bool) (s : IpState) :
    IpEvent → IpState × Option String
  | IpEvent.packet p =>
    let (q, flows, sent, err) :=
      create_bursts p.time inactive_time s.key_time_queue s.flows
    match err with
    | some e =>
      ({ key_time_queue := q, flows := flows, last_time := p.time,
         outputs := s.outputs ++ sent }, some e)
    | none =>
      let flow_key := ipFlowKey ignore_ports p
      let flows := touchIp flows flow_key p ignore_ports
      let q := q.enqueue (flow_key, p.time)
      ({ key_time_queue := q, flows := flows, last_time := p.time,
         outputs := s.outputs ++ sent }, none)
  | IpEvent.timeout =>
    let current_time_est := s.last_time + inactive_time
    let (q, flows, sent, err) :=
      create_bursts current_time_est inactive_time s.key_time_queue s.flows
    ({ s with
        key_time_queue := q, flows := flows,
        outputs := s.outputs ++ sent }, err)

/-- Run the wired worker over a list of stimuli; a panic stops the run. -/
def ipRun (inactive_time : Time) (ignore_ports : Bool) :
    List IpEvent → IpState → IpState × Option String
  | [], s => (s, none)
  | ev :: evs, s =>
    match ipStep inactive_time ignore_ports s ev with
    | (s', none) => ipRun inactive_time ignore_ports evs s'
    | (s', some e) => (s', some e)

/-! ### The wireless worker loop (`start_wlan`) -/

/-- An external stimulus of the wireless worker loop. -/
inductive WlanEvent where
  | packet (p : WlanPacket)
  | timeout
deriving DecidableEq

/-- The state owned by the wireless worker thread.  Note: unlike
`start_ip`, the wireless loop keeps no `last_time`. -/
structure WlanState where
  key_time_queue : Fifo (WlanKey × Time)
  flows : List (WlanKey × WlanFlow)
  outputs : List Burst

/-- The initial worker state of `start_wlan`. -/
def wlanInit : WlanState :=
  { key_time_queue := Fifo.new, flows := [], outputs := [] }

/-- The estimated current time used by `start_wlan` on a receive timeout:
the source computes `0.0 + inactive_time`, independent of any packet ever
observed. -/
def wlanTimeoutEstimate (inactive_time : Time) : Time :=
  0 + inactive_time

/-- One iteration of the `start_wlan` worker loop.  A second packet for an
existing key calls `WlanFlow::add_packet`, whose `todo!` panic aborts the
thread. -/
def wlanStep (inactive_time : Time) (no_guess : Bool) (max_deviation : Nat)
    (s : WlanState) : WlanEvent → WlanState × Option String
  | WlanEvent.packet p =>
    let (q, flows, sent, err) :=
      create_bursts p.time inactive_time s.key_time_queue s.flows
    match err with
    | some e =>
      ({ key_time_queue := q, flows := flows,
         outputs := s.outputs ++ sent }, some e)
    | none =>
      let flow_key : WlanKey := (p.src, p.dst)
      match alookup flows flow_key with
      | some flow =>
        match flow.add_packet p with
        | Except.error e =>
          ({ key_time_queue := q, flows := flows,
             outputs := s.outputs ++ sent }, some e)
        | Except.ok flow' =>
          ({ key_time_queue := q.enqueue (flow_key, p.time),
             flows := aupdate flows flow_key flow',
             outputs := s.outputs ++ sent }, none)
      | none =>
        ({ key_time_queue := q.enqueue (flow_key, p.time),
           flows := aupdate flows flow_key (WlanFlow.new p no_guess max_deviation),
           outputs := s.outputs ++ sent }, none)
  | WlanEvent.timeout =>
    let current_time_est := wlanTimeoutEstimate inactive_time
    let (q, flows, sent, err) :=
      create_bursts current_time_est inactive_time s.key_time_queue s.flows
    ({ key_time_queue := q, flows := flows,
       outputs := s.outputs ++ sent }, err)

/-- Run the wireless worker over a list of stimuli; a panic stops the run. -/
def wlanRun (inactive_time : Time) (no_guess : Bool) (max_deviation : Nat) :
    List WlanEvent → WlanState → WlanState × Option String
  | [], s => (s, none)
  | ev :: evs, s =>
    match wlanStep inactive_time no_guess max_deviation s ev with
    | (s', none) => wlanRun inactive_time no_guess max_deviation evs s'
    | (s', some e) => (s', some e)


/-! ### Predicates used by the stated properties -/

/-- The packet timestamps occurring in an event list are non-decreasing,
starting from `t` (capture timestamps are non-negative seconds, so a run
from the initial state uses `t = 0`). -/
def timesMono : Time → List IpEvent → Prop
  | _, [] => True
  | t, IpEvent.timeout :: evs => timesMono t evs
  | t, IpEvent.packet p :: evs => t ≤ p.time ∧ timesMono p.time evs

/-- A well-ordered burst: it spans forward in time and was completed no
earlier than its last packet. -/
def GoodBurst (b : Burst) : Prop :=
  b.start ≤ b.end_ ∧ b.end_ ≤ b.completion_time

/-- Every open burst in the wired flow table spans forward in time and
ends no later than `t`. -/
def FlowsOK (flows : List (FlowKey × IpFlow)) (t : Time) : Prop :=
  ∀ key flow, alookup flows key = some flow →
    ∀ burst, flow.current_burst = some burst →
      burst.start ≤ burst.end_ ∧ burst.end_ ≤ t

/-! ## Fifo refinement lemmas -/

theorem Fifo.inv_new {α : Type} : (Fifo.new (α := α)).Inv [] := by
  refine ⟨rfl, by norm_num [Fifo.new], Or.inl ⟨by norm_num [Fifo.new], rfl, rfl, ?_⟩⟩
  intro i hi
  simp at hi

theorem Nat.add_mod_inj_of_lt {n a i j : Nat} (hi : i < n) (hj : j < n)
    (h : (a + i) % n = (a + j) % n) : i = j := by
  have h' : i ≡ j [MOD n] := Nat.ModEq.add_left_cancel' a h
  rwa [Nat.ModEq, Nat.mod_eq_of_lt hi, Nat.mod_eq_of_lt hj] at h'

theorem Fifo.inv_enqueue {α : Type} {f : Fifo α} {l : List α} (x : α) (hI : f.Inv l) :
    (f.enqueue x).Inv (l ++ [x]) := by
  obtain ⟨hsz, hcap, hmode⟩ := hI
  rcases hmode with ⟨hlen, hht, htl, hidx⟩ | ⟨hlen, htl, hh, hsc, hidx⟩
  · -- growing mode: the vector has never been filled (or was just reallocated)
    have hgrow : ¬(f.tail = f.head ∧ 0 < f.size) := by rintro ⟨h1, h2⟩; omega
    rw [Fifo.enqueue, if_neg hgrow, if_pos hlen]
    simp only [Fifo.Inv]
    refine ⟨by simp [hsz], hcap, ?_⟩
    by_cases hlt : f.tail + 1 < f.cap
    · left
      refine ⟨by simp; omega, ?_, ?_, ?_⟩
      · simp only [Nat.mod_eq_of_lt hlt]; omega
      · simp only [Nat.mod_eq_of_lt hlt, List.length_append, List.length_cons,
          List.length_nil]; omega
      · intro i hi
        simp only [List.length_append, List.length_cons, List.length_nil] at hi
        rcases Nat.lt_or_ge i l.length with hi' | hi'
        · rw [List.getElem?_append, if_pos hi', hidx i hi',
            List.getElem?_append, if_pos (by omega)]
        · have hieq : i = l.length := by omega
          subst hieq
          rw [List.getElem?_concat_length]
          have hhd : f.head + l.length = f.buffer.length := by omega
          rw [hhd, List.getElem?_concat_length]
    · right
      have hteq : f.tail + 1 = f.cap := by omega
      refine ⟨by simp; omega, ?_, by omega, by omega, ?_⟩
      · have h1 : (f.tail + 1) % f.cap = 0 := by rw [hteq, Nat.mod_self]
        have h2 : f.head + (f.size + 1) = f.cap := by omega
        rw [h1, h2, Nat.mod_self]
      · intro i hi
        simp only [List.length_append, List.length_cons, List.length_nil] at hi
        have hmod : (f.head + i) % f.cap = f.head + i :=
          Nat.mod_eq_of_lt (by omega)
        rw [hmod]
        rcases Nat.lt_or_ge i l.length with hi' | hi'
        · rw [List.getElem?_append, if_pos hi', hidx i hi',
            List.getElem?_append, if_pos (by omega)]
        · have hieq : i = l.length := by omega
          subst hieq
          rw [List.getElem?_concat_length]
          have hhd : f.head + l.length = f.buffer.length := by omega
          rw [hhd, List.getElem?_concat_length]
  · -- filled mode: the vector is at capacity, live region wraps modulo cap
    by_cases hfull : f.tail = f.head ∧ 0 < f.size
    · -- logically full: the reallocating branch
      have hcap0 : 0 < f.cap := by omega
      have hfs : f.size = f.cap := by
        have h2 : (f.head + f.size) % f.cap = (f.head + 0) % f.cap := by
          rw [Nat.add_zero, Nat.mod_eq_of_lt hh, ← htl, hfull.1]
        have h3 : f.size ≡ 0 [MOD f.cap] := Nat.ModEq.add_left_cancel' f.head h2
        have h4 : f.size % f.cap = 0 := by rwa [Nat.ModEq, Nat.zero_mod] at h3
        exact le_antisymm hsc (Nat.le_of_dvd hfull.2 (Nat.dvd_of_mod_eq_zero h4))
      rw [Fifo.enqueue, if_pos hfull]
      simp only [Fifo.Inv]
      have hth : f.tail = f.head := hfull.1
      have hlen' : (f.buffer.drop f.tail ++ f.buffer.take f.tail).length = f.cap := by
        simp only [List.length_append, List.length_drop, List.length_take]
        omega
      refine ⟨by simp [hsz], by omega, Or.inl ⟨?_, by omega, ?_, ?_⟩⟩
      · simp only [List.length_append, List.length_cons, List.length_nil, hlen']
        omega
      · simp only [List.length_append, List.length_cons, List.length_nil, hlen']
        omega
      · intro i hi
        simp only [List.length_append, List.length_cons, List.length_nil] at hi
        simp only [Nat.zero_add]
        rcases Nat.lt_or_ge i l.length with hi' | hi'
        · rw [List.getElem?_append, if_pos hi', hidx i hi',
            List.getElem?_append, if_pos (by omega)]
          have hilen : i < l.length := hi'
          rw [List.getElem?_append]
          by_cases hcase : i < f.cap - f.head
          · rw [if_pos (by simp only [List.length_drop]; omega), hth,
              List.getElem?_drop]
            rw [Nat.mod_eq_of_lt (by omega)]
          · rw [if_neg (by simp only [List.length_drop]; omega), hth]
            simp only [List.length_drop]
            rw [List.getElem?_take, if_pos (by omega)]
            have hge : f.head + i ≥ f.cap := by omega
            rw [Nat.mod_eq_sub_mod hge, Nat.mod_eq_of_lt (by omega)]
            have : i - (f.buffer.length - f.head) = f.head + i - f.cap := by omega
            rw [this]
        · have hieq : i = l.length := by omega
          subst hieq
          rw [List.getElem?_concat_length]
          have hhd : l.length = (f.buffer.drop f.tail ++ f.buffer.take f.tail).length := by
            omega
          rw [hhd, List.getElem?_concat_length]
    · -- at capacity but not logically full: the wrap-around write branch
      have hslt : f.size < f.cap := by
        rcases Nat.lt_or_ge f.size f.cap with h | h
        · exact h
        · exfalso
          have hfs : f.size = f.cap := le_antisymm hsc h
          apply hfull
          refine ⟨?_, by omega⟩
          rw [htl, hfs, Nat.add_mod_right, Nat.mod_eq_of_lt hh]
      rw [Fifo.enqueue, if_neg hfull, if_neg (by omega)]
      simp only [Fifo.Inv]
      refine ⟨by simp [hsz], hcap, Or.inr ⟨by simp [List.length_set, hlen], ?_, hh, by omega, ?_⟩⟩
      · rw [htl, Nat.mod_add_mod]
        congr 1
      · intro i hi
        simp only [List.length_append, List.length_cons, List.length_nil] at hi
        rcases Nat.lt_or_ge i l.length with hi' | hi'
        · rw [List.getElem?_append, if_pos hi', hidx i hi']
          rw [List.getElem?_set_ne]
          rw [htl]
          intro hmeq
          have : f.size = i := Nat.add_mod_inj_of_lt (by omega) (by omega) hmeq
          omega
        · have hieq : i = l.length := by omega
          subst hieq
          rw [List.getElem?_concat_length]
          have hmod : (f.head + l.length) % f.cap = f.tail := by rw [htl, hsz]
          have htlt : f.tail < f.buffer.length := by
            rw [htl, hlen]
            exact Nat.mod_lt _ (by omega)
          rw [hmod, List.getElem?_set_self htlt]

theorem Fifo.inv_dequeue_nil {α : Type} {f : Fifo α} (hI : f.Inv []) :
    f.dequeue = none := by
  obtain ⟨hsz, -, -⟩ := hI
  simp only [List.length_nil] at hsz
  simp [Fifo.dequeue, hsz]

theorem Fifo.inv_peek {α : Type} {f : Fifo α} {l : List α} (hI : f.Inv l) :
    f.peek = l[0]? := by
  obtain ⟨hsz, hcap, hmode⟩ := hI
  cases l with
  | nil =>
    simp only [List.length_nil] at hsz
    simp [Fifo.peek, hsz]
  | cons x rest =>
    have hpos : 0 < f.size := by simp [hsz]
    rw [Fifo.peek, if_pos hpos]
    rcases hmode with ⟨-, -, -, hidx⟩ | ⟨-, -, hh, -, hidx⟩
    · have := hidx 0 (by simp)
      simpa using this.symm
    · have := hidx 0 (by simp)
      rw [Nat.add_zero, Nat.mod_eq_of_lt hh] at this
      simpa using this.symm

theorem Fifo.inv_dequeue_cons {α : Type} {f : Fifo α} {x : α} {rest : List α}
    (hI : f.Inv (x :: rest)) :
    ∃ f', f.dequeue = some (x, f') ∧ f'.Inv rest := by
  obtain ⟨hsz, hcap, hmode⟩ := hI
  simp only [List.length_cons] at hsz
  have hpos : 0 < f.size := by omega
  refine ⟨{ f with head := (f.head + 1) % f.cap, size := f.size - 1 }, ?_, ?_⟩
  · rw [Fifo.dequeue, if_pos hpos]
    have hx : f.buffer[f.head]? = some x := by
      rcases hmode with ⟨-, -, -, hidx⟩ | ⟨-, -, hh, -, hidx⟩
      · have := hidx 0 (by simp)
        simpa using this.symm
      · have := hidx 0 (by simp)
        rw [Nat.add_zero, Nat.mod_eq_of_lt hh] at this
        simpa using this.symm
    rw [hx]
    rfl
  · simp only [Fifo.Inv]
    rcases hmode with ⟨hlen, hht, htl, hidx⟩ | ⟨hlen, htl, hh, hsc, hidx⟩
    · have hh1 : (f.head + 1) % f.cap = f.head + 1 := Nat.mod_eq_of_lt (by omega)
      refine ⟨by omega, hcap, Or.inl ⟨hlen, ?_, htl, ?_⟩⟩
      · simp only [hh1]; omega
      · intro i hi
        have := hidx (i + 1) (by simp; omega)
        simp only [List.getElem?_cons_succ] at this
        rw [this, hh1]
        congr 1
        omega
    · have hcap0 : 0 < f.cap := by omega
      refine ⟨by omega, hcap,
        Or.inr ⟨hlen, ?_, Nat.mod_lt _ hcap0, by omega, ?_⟩⟩
      · rw [htl, Nat.mod_add_mod]
        congr 1
        omega
      · intro i hi
        have := hidx (i + 1) (by simp; omega)
        simp only [List.getElem?_cons_succ] at this
        rw [this, Nat.mod_add_mod]
        congr 2
        omega

theorem runFifo_eq_runSpec {α : Type} (ops : List (FifoOp α)) (f : Fifo α)
    (l : List α) (h : f.Inv l) : runFifo ops f = runSpec ops l := by
  induction ops generalizing f l with
  | nil => rfl
  | cons op ops ih =>
    cases op with
    | enq x =>
      rw [runFifo, runSpec]
      exact ih _ _ (Fifo.inv_enqueue x h)
    | deq =>
      cases l with
      | nil =>
        rw [runFifo, runSpec]
        rw [Fifo.inv_dequeue_nil h]
        exact congrArg _ (ih _ _ h)
      | cons x rest =>
        obtain ⟨f', hdeq, hinv⟩ := Fifo.inv_dequeue_cons h
        rw [runFifo, runSpec, hdeq]
        exact congrArg _ (ih _ _ hinv)

/-! ## Association-list lemmas -/

theorem alookup_aupdate {κ β : Type} [DecidableEq κ] (l : List (κ × β))
    (k k' : κ) (v : β) :
    alookup (aupdate l k v) k' = if k' = k then some v else alookup l k' := by
  induction l with
  | nil =>
    by_cases h : k' = k
    · simp [aupdate, alookup, h]
    · simp [aupdate, alookup, h]
  | cons kv rest ih =>
    obtain ⟨k0, v0⟩ := kv
    by_cases h : k = k0
    · subst h
      by_cases h' : k' = k
      · simp [aupdate, alookup, h']
      · simp [aupdate, alookup, h']
    · by_cases h' : k' = k0
      · have hkk : ¬k0 = k := fun hh => h hh.symm
        simp [aupdate, alookup, h, h', hkk]
      · simp [aupdate, alookup, h, h', ih]

theorem alookup_aupdate_self {κ β : Type} [DecidableEq κ] (l : List (κ × β))
    (k : κ) (v : β) : alookup (aupdate l k v) k = some v := by
  rw [alookup_aupdate, if_pos rfl]

/-! ## Claims -/

/-- C5: for every sequence of enqueue and dequeue operations on a `Fifo`
(including sequences whose enqueue count exceeds the initial capacity and
triggers any number of capacity-doubling growth events), the sequence of
values returned by dequeue equals the sequence of values enqueued, in the
same order: the ring buffer is observationally equal to a naive unbounded
list queue. -/
theorem fifo_refines_list_queue {α : Type} (ops : List (FifoOp α)) :
    runFifo ops Fifo.new = runSpec ops [] :=
  runFifo_eq_runSpec ops Fifo.new [] Fifo.inv_new

/-- C4: with `inactive_time = 2.0` and `ignore_ports = true`, feeding the
wired events `(t=0, A→B, len=100)`, `(t=1/2, A→B, len=50)`,
`(t=3, A→B, len=80)` emits exactly one burst, during the sweep run by the
third event's arrival at `t=3` (nothing was emitted after the first two
events), with `start = 0`, `end = 1/2`, `num_packets = 2`, `size = 150`,
`completion_time = 3`; afterwards the flow holds a new open burst with
`start = 3`. -/
theorem ip_concrete_scenario :
    (ipRun 2 true
      [IpEvent.packet ⟨0, 0, 1, 10, 20, 100⟩,
       IpEvent.packet ⟨1/2, 0, 1, 10, 20, 50⟩,
       IpEvent.packet ⟨3, 0, 1, 10, 20, 80⟩] ipInit).1.outputs
      = [⟨3, 0, 1, none, none, 0, 1/2, 2, 150⟩] ∧
    (ipRun 2 true
      [IpEvent.packet ⟨0, 0, 1, 10, 20, 100⟩,
       IpEvent.packet ⟨1/2, 0, 1, 10, 20, 50⟩] ipInit).1.outputs = [] ∧
    ((alookup
        (ipRun 2 true
          [IpEvent.packet ⟨0, 0, 1, 10, 20, 100⟩,
           IpEvent.packet ⟨1/2, 0, 1, 10, 20, 50⟩,
           IpEvent.packet ⟨3, 0, 1, 10, 20, 80⟩] ipInit).1.flows
        (0, 1, none, none)).map fun flow =>
          flow.current_burst.map fun burst => burst.start)
      = some (some 3) := by
  refine ⟨?_, ?_, ?_⟩ <;>
    norm_num [ipRun, ipStep, create_bursts, create_bursts_loop, ipInit,
      Fifo.new, Fifo.peek, Fifo.enqueue, Fifo.dequeue, touchIp, alookup,
      aupdate, ipFlowKey, IpFlow.new, IpFlow.add_packet, Burst.from_ip_packet,
      IpFlow.flowInst, Flow.prev_time, Flow.send_burst, abs]

/-- C1 is violated by the code: for the stream with two packets of one flow
at `t = 0` and `t = 1/20000` (closer together than the `1/10000` staleness
tolerance) followed by a timeout, the sweep first finalizes the flow via
the older queue entry (which passes the tolerance check), and then the
newer entry also passes the check because `prev_time()` of the now-empty
flow defaults to `0.0`, which is within the tolerance of the entry's
timestamp; `send_burst` then takes the "Tried to transmit an empty burst"
error branch, so the branch is reachable and the worker dies. -/
theorem ip_empty_burst_error_reachable :
    (ipRun 2 true
      [IpEvent.packet ⟨0, 0, 1, 10, 20, 1⟩,
       IpEvent.packet ⟨1/20000, 0, 1, 10, 20, 1⟩,
       IpEvent.timeout] ipInit).2
      = some "Internal error: Tried to transmit an empty burst" := by
  norm_num [ipRun, ipStep, create_bursts, create_bursts_loop, ipInit,
    Fifo.new, Fifo.peek, Fifo.enqueue, Fifo.dequeue, touchIp, alookup,
    aupdate, ipFlowKey, IpFlow.new, IpFlow.add_packet, Burst.from_ip_packet,
    IpFlow.flowInst, Flow.prev_time, Flow.send_burst, abs]

/-- C9: the wired engine is deterministic: two runs of a fresh engine over
the identical event sequence produce identical burst outputs. -/
theorem ip_run_deterministic (inactive_time : Time) (ignore_ports : Bool)
    (evs : List IpEvent) (r1 r2 : IpState × Option String)
    (h1 : r1 = ipRun inactive_time ignore_ports evs ipInit)
    (h2 : r2 = ipRun inactive_time ignore_ports evs ipInit) :
    r1.1.outputs = r2.1.outputs := by
  rw [h1, h2]

theorem ip_run_deterministic_witness :
    (ipRun 2 true [IpEvent.timeout] ipInit).1.outputs
      = (ipRun 2 true [IpEvent.timeout] ipInit).1.outputs :=
  ip_run_deterministic 2 true [IpEvent.timeout] _ _ rfl rfl

/-- C6: the wired flow table touch.  If the key is absent, a new `IpFlow`
is created whose current burst has `start = end = p.time`, one packet and
size `p.data_len`; if the key is present and holds a current burst, that
burst's end becomes `p.time`, its packet count grows by one and its size by
`p.data_len`, with `start` unchanged. -/
theorem touchIp_contract (flows : List (FlowKey × IpFlow)) (key : FlowKey)
    (p : IpPacket) (ignore_ports : Bool) :
    (alookup flows key = none →
      alookup (touchIp flows key p ignore_ports) key
          = some (IpFlow.new p ignore_ports) ∧
        (IpFlow.new p ignore_ports).current_burst
          = some (Burst.from_ip_packet p ignore_ports) ∧
        (Burst.from_ip_packet p ignore_ports).start = p.time ∧
        (Burst.from_ip_packet p ignore_ports).end_ = p.time ∧
        (Burst.from_ip_packet p ignore_ports).num_packets = 1 ∧
        (Burst.from_ip_packet p ignore_ports).size = p.data_len) ∧
    (∀ flow burst, alookup flows key = some flow →
      flow.current_burst = some burst →
        alookup (touchIp flows key p ignore_ports) key
          = some { flow with
              current_burst := some { burst with
                end_ := p.time,
                num_packets := burst.num_packets + 1,
                size := burst.size + p.data_len } }) := by
  constructor
  · intro habsent
    rw [touchIp, habsent]
    exact ⟨alookup_aupdate_self flows key _, rfl, rfl, rfl, rfl, rfl⟩
  · intro flow burst hflow hburst
    rw [touchIp, hflow, alookup_aupdate_self, IpFlow.add_packet, hburst]

theorem touchIp_contract_witness :
    alookup ([] : List (FlowKey × IpFlow)) (0, 1, none, none) = none ∧
      alookup
        (touchIp [] (0, 1, none, none) ⟨7, 0, 1, 10, 20, 42⟩ true)
        (0, 1, none, none)
        = some (IpFlow.new ⟨7, 0, 1, 10, 20, 42⟩ true) := by
  refine ⟨rfl, ?_⟩
  have h := (touchIp_contract [] (0, 1, none, none) ⟨7, 0, 1, 10, 20, 42⟩ true).1 rfl
  exact h.1

/-- C8: a queue entry whose age exactly equals the inactivity interval is
processed, not left waiting: with a live front entry `(key, t)` and sweep
time `t + inactive_time`, the loop's `<` stop condition does not fire, the
entry is dequeued (the queue empties) and the flow's burst is finalized
and emitted with completion time `t + inactive_time`. -/
theorem sweep_boundary_eviction (inactive_time t : Time) (key : FlowKey)
    (flow : IpFlow) (burst : Burst)
    (hb : flow.current_burst = some burst) (hend : burst.end_ = t) :
    (create_bursts (t + inactive_time) inactive_time
        (Fifo.new.enqueue (key, t)) [(key, flow)]).2.2
      = ([{ burst with completion_time := t + inactive_time }], none) ∧
    (create_bursts (t + inactive_time) inactive_time
        (Fifo.new.enqueue (key, t)) [(key, flow)]).1.size = 0 := by
  constructor <;>
    norm_num [create_bursts, create_bursts_loop, Fifo.new, Fifo.peek,
      Fifo.enqueue, Fifo.dequeue, alookup, aupdate, IpFlow.flowInst,
      Flow.prev_time, Flow.send_burst, hb, hend, add_sub_cancel_left]

theorem sweep_boundary_eviction_witness :
    (create_bursts ((5:ℚ) + 2) 2
        (Fifo.new.enqueue (((0, 1, none, none) : FlowKey), (5 : Time)))
        [(((0, 1, none, none) : FlowKey), IpFlow.new ⟨5, 0, 1, 10, 20, 9⟩ true)]).2.2
      = ([{ Burst.from_ip_packet ⟨5, 0, 1, 10, 20, 9⟩ true with
            completion_time := (5:ℚ) + 2 }], none) ∧
    (create_bursts ((5:ℚ) + 2) 2
        (Fifo.new.enqueue (((0, 1, none, none) : FlowKey), (5 : Time)))
        [(((0, 1, none, none) : FlowKey), IpFlow.new ⟨5, 0, 1, 10, 20, 9⟩ true)]).1.size = 0 :=
  sweep_boundary_eviction 2 5 (0, 1, none, none)
    (IpFlow.new ⟨5, 0, 1, 10, 20, 9⟩ true)
    (Burst.from_ip_packet ⟨5, 0, 1, 10, 20, 9⟩ true) rfl rfl

/-- C10: in the wireless pipeline, a second packet for a flow key already
present in the flow table unconditionally panics via the `todo!` in
`WlanFlow::add_packet` (whether or not the sweep first finalized the flow's
burst), aborting the wireless worker; a single first packet per key is
processed without crashing. -/
theorem wlan_second_packet_panics (inactive_time : Time) (no_guess : Bool)
    (max_deviation : Nat) (p1 p2 : WlanPacket)
    (hsrc : p2.src = p1.src) (hdst : p2.dst = p1.dst) :
    (wlanRun inactive_time no_guess max_deviation
      [WlanEvent.packet p1, WlanEvent.packet p2] wlanInit).2 = some wlanTodoMsg ∧
    (wlanRun inactive_time no_guess max_deviation
      [WlanEvent.packet p1] wlanInit).2 = none := by
  constructor
  · rcases lt_or_ge (p2.time - p1.time) inactive_time with hc | hc
    · norm_num [wlanRun, wlanStep, create_bursts, create_bursts_loop,
        wlanInit, Fifo.new, Fifo.peek, Fifo.enqueue, Fifo.dequeue, alookup,
        aupdate, WlanFlow.new, WlanFlow.add_packet, Burst.from_wlan_packet,
        WlanFlow.flowInst, Flow.prev_time, Flow.send_burst, hsrc, hdst, hc]
    · norm_num [wlanRun, wlanStep, create_bursts, create_bursts_loop,
        wlanInit, Fifo.new, Fifo.peek, Fifo.enqueue, Fifo.dequeue, alookup,
        aupdate, WlanFlow.new, WlanFlow.add_packet, Burst.from_wlan_packet,
        WlanFlow.flowInst, Flow.prev_time, Flow.send_burst, hsrc, hdst,
        not_lt.mpr hc]
  · norm_num [wlanRun, wlanStep, create_bursts, create_bursts_loop,
      wlanInit, Fifo.new, Fifo.peek, Fifo.enqueue, Fifo.dequeue, alookup,
      aupdate, WlanFlow.new, Burst.from_wlan_packet]

theorem wlan_second_packet_panics_witness :
    (wlanRun 2 false 0
      [WlanEvent.packet ⟨5, 1, 2, 10, 0⟩, WlanEvent.packet ⟨6, 1, 2, 11, 1⟩]
      wlanInit).2 = some wlanTodoMsg ∧
    (wlanRun 2 false 0 [WlanEvent.packet ⟨5, 1, 2, 10, 0⟩] wlanInit).2 = none :=
  wlan_second_packet_panics 2 false 0 ⟨5, 1, 2, 10, 0⟩ ⟨6, 1, 2, 11, 1⟩ rfl rfl

/-- C3 is violated by the wireless pipeline: its timeout sweep always uses
`0.0 + inactive_time` as the estimated current time, not the last observed
packet time plus the interval.  After a wireless packet at `t = 5` with
`inactive_time = 2`, the timeout sweep estimates `2` (so `2 - 5 < 2` and
nothing is emitted although the flow has been idle for the whole interval),
while the wired pipeline fed the identical stimulus estimates `5 + 2 = 7`
and does emit the burst. -/
theorem wlan_timeout_estimate_counterexample :
    (wlanRun 2 false 0
      [WlanEvent.packet ⟨5, 1, 2, 10, 0⟩, WlanEvent.timeout]
      wlanInit).1.outputs = [] ∧
    (ipRun 2 true
      [IpEvent.packet ⟨5, 1, 2, 10, 20, 30⟩, IpEvent.timeout]
      ipInit).1.outputs = [⟨7, 1, 2, none, none, 5, 5, 1, 30⟩] ∧
    wlanTimeoutEstimate 2 = 2 := by
  refine ⟨?_, ?_, by norm_num [wlanTimeoutEstimate]⟩
  · norm_num [wlanRun, wlanStep, create_bursts, create_bursts_loop,
      wlanInit, Fifo.new, Fifo.peek, Fifo.enqueue, Fifo.dequeue, alookup,
      aupdate, WlanFlow.new, Burst.from_wlan_packet, WlanFlow.flowInst,
      Flow.prev_time, Flow.send_burst, wlanTimeoutEstimate]
  · norm_num [ipRun, ipStep, create_bursts, create_bursts_loop, ipInit,
      Fifo.new, Fifo.peek, Fifo.enqueue, Fifo.dequeue, touchIp, alookup,
      aupdate, ipFlowKey, IpFlow.new, IpFlow.add_packet, Burst.from_ip_packet,
      IpFlow.flowInst, Flow.prev_time, Flow.send_burst, abs]

theorem ipRun_last_time_mono (inactive_time : Time) (ignore_ports : Bool)
    (evs : List IpEvent) (s : IpState) (hmono : timesMono s.last_time evs) :
    s.last_time ≤ (ipRun inactive_time ignore_ports evs s).1.last_time := by
  induction evs generalizing s with
  | nil => simp [ipRun]
  | cons ev evs ih =>
    cases ev with
    | packet p =>
      obtain ⟨hle, hmono'⟩ := hmono
      rw [ipRun]
      rcases hq : create_bursts p.time inactive_time s.key_time_queue s.flows
        with ⟨q, flows, sent, err⟩
      cases err with
      | some e => simpa [ipStep, hq] using hle
      | none =>
        simp only [ipStep, hq]
        refine le_trans hle ?_
        exact ih _ hmono'
    | timeout =>
      rw [ipRun]
      rcases hq : create_bursts (s.last_time + inactive_time) inactive_time
        s.key_time_queue s.flows with ⟨q, flows, sent, err⟩
      cases err with
      | some e => simp [ipStep, hq]
      | none =>
        simp only [ipStep, hq]
        exact ih _ hmono

/-- C3 amended: the wired pipeline's timeout sweep uses the estimate
`last_time + inactive_time` (`inactive_time` alone while no packet has been
seen, since `last_time` starts at `0`), and, for event sequences whose
packet timestamps are non-decreasing, `last_time` never decreases along the
run, so the estimate is monotonically non-decreasing across successive
timeouts.  The wireless pipeline does NOT track the last packet time: its
timeout sweep always uses `0.0 + inactive_time`, which is trivially
non-decreasing. -/
theorem timeout_estimate_amended (inactive_time : Time) (ignore_ports : Bool)
    (evs : List IpEvent) (s : IpState) (hmono : timesMono s.last_time evs) :
    s.last_time + inactive_time
        ≤ (ipRun inactive_time ignore_ports evs s).1.last_time + inactive_time ∧
    wlanTimeoutEstimate inactive_time = 0 + inactive_time := by
  exact ⟨add_le_add_right (ipRun_last_time_mono inactive_time ignore_ports evs s hmono) _,
    rfl⟩

theorem timeout_estimate_amended_witness :
    ipInit.last_time + 2
        ≤ (ipRun 2 true [IpEvent.packet ⟨5, 1, 2, 10, 20, 30⟩, IpEvent.timeout]
            ipInit).1.last_time + 2 ∧
      wlanTimeoutEstimate 2 = 0 + 2 :=
  timeout_estimate_amended 2 true
    [IpEvent.packet ⟨5, 1, 2, 10, 20, 30⟩, IpEvent.timeout] ipInit
    (by constructor
        · norm_num [ipInit]
        · trivial)

/-- C2: a flow touched twice in quick succession (two queue entries less
than the inactivity interval apart, but separated by at least the staleness
tolerance `1/10000`) and then left idle emits exactly one burst when the
timeout sweep runs: the older entry, whose timestamp no longer matches the
flow's last-touch time under the tolerance comparison, is discarded
silently, and only the newer, live entry finalizes the (two-packet)
burst. -/
theorem stale_entry_discarded (inactive_time : Time) (s d sp dp l1 l2 : Nat)
    (t1 t2 : Time) (ignore_ports : Bool)
    (hquick : t2 - t1 < inactive_time)
    (htol : 1/10000 ≤ t2 - t1) :
    (ipRun inactive_time ignore_ports
      [IpEvent.packet ⟨t1, s, d, sp, dp, l1⟩,
       IpEvent.packet ⟨t2, s, d, sp, dp, l2⟩,
       IpEvent.timeout] ipInit).1.outputs
      = [⟨t2 + inactive_time, s, d,
          (if ignore_ports then none else some sp),
          (if ignore_ports then none else some dp),
          t1, t2, 2, l1 + l2⟩] ∧
    (ipRun inactive_time ignore_ports
      [IpEvent.packet ⟨t1, s, d, sp, dp, l1⟩,
       IpEvent.packet ⟨t2, s, d, sp, dp, l2⟩,
       IpEvent.timeout] ipInit).2 = none := by
  have h1 : ¬(t2 + inactive_time - t1 < inactive_time) := by linarith
  have h2 : ¬(|t2 - t1| < 1/10000) := by
    rw [abs_of_nonneg (by linarith)]
    linarith
  have h3 : ¬(t2 + inactive_time - t2 < inactive_time) := by linarith
  cases ignore_ports <;> constructor <;>
    norm_num [ipRun, ipStep, create_bursts, create_bursts_loop, ipInit,
      Fifo.new, Fifo.peek, Fifo.enqueue, Fifo.dequeue, touchIp, alookup,
      aupdate, ipFlowKey, IpFlow.new, IpFlow.add_packet, Burst.from_ip_packet,
      IpFlow.flowInst, Flow.prev_time, Flow.send_burst,
      hquick, h1, h2, h3]

theorem stale_entry_discarded_witness :
    (ipRun 2 true
      [IpEvent.packet ⟨0, 3, 4, 10, 20, 100⟩,
       IpEvent.packet ⟨1, 3, 4, 10, 20, 50⟩,
       IpEvent.timeout] ipInit).1.outputs
      = [⟨1 + 2, 3, 4,
          (if true then none else some 10),
          (if true then none else some 20),
          0, 1, 2, 100 + 50⟩] ∧
    (ipRun 2 true
      [IpEvent.packet ⟨0, 3, 4, 10, 20, 100⟩,
       IpEvent.packet ⟨1, 3, 4, 10, 20, 50⟩,
       IpEvent.timeout] ipInit).2 = none :=
  stale_entry_discarded 2 3 4 10 20 100 50 0 1 true
    (by norm_num) (by norm_num)

/-! ## Burst time-ordering invariant (wired pipeline) -/

theorem ipFlow_prev_time (f : IpFlow) :
    Flow.prev_time f = f.current_burst.map fun b => b.end_ := rfl

theorem ipFlow_send_burst (f : IpFlow) (ct : Time) :
    Flow.send_burst f ct =
      match f.current_burst with
      | some burst =>
        Except.ok ({ f with current_burst := none },
          { burst with completion_time := ct })
      | none =>
        Except.error "Internal error: Tried to transmit an empty burst" := rfl

theorem FlowsOK_mono {flows : List (FlowKey × IpFlow)} {t t' : Time}
    (h : t ≤ t') (hf : FlowsOK flows t) : FlowsOK flows t' := by
  intro key flow hl burst hb
  obtain ⟨h1, h2⟩ := hf key flow hl burst hb
  exact ⟨h1, le_trans h2 h⟩

theorem FlowsOK_aupdate_none {flows : List (FlowKey × IpFlow)} {t : Time}
    (hf : FlowsOK flows t) (key : FlowKey) (flow : IpFlow)
    (hnone : flow.current_burst = none) :
    FlowsOK (aupdate flows key flow) t := by
  intro key' flow' hl burst hb
  rw [alookup_aupdate] at hl
  by_cases hk : key' = key
  · rw [if_pos hk] at hl
    injection hl with he
    rw [← he, hnone] at hb
    exact absurd hb (by simp)
  · rw [if_neg hk] at hl
    exact hf key' flow' hl burst hb

theorem FlowsOK_touchIp (flows : List (FlowKey × IpFlow)) (key : FlowKey)
    (p : IpPacket) (ignore_ports : Bool) (hf : FlowsOK flows p.time) :
    FlowsOK (touchIp flows key p ignore_ports) p.time := by
  intro key' flow' hl burst hb
  rw [touchIp] at hl
  rcases hlook : alookup flows key with _ | flow
  · rw [hlook, alookup_aupdate] at hl
    by_cases hk : key' = key
    · rw [if_pos hk] at hl
      injection hl with he
      rw [← he, IpFlow.new] at hb
      injection hb with hbe
      rw [← hbe, Burst.from_ip_packet]
      exact ⟨le_refl _, le_refl _⟩
    · rw [if_neg hk] at hl
      exact hf key' flow' hl burst hb
  · rw [hlook, alookup_aupdate] at hl
    by_cases hk : key' = key
    · rw [if_pos hk] at hl
      injection hl with he
      rw [← he, IpFlow.add_packet] at hb
      rcases hcb : flow.current_burst with _ | b0
      · rw [hcb] at hb
        simp only at hb
        injection hb with hbe
        rw [← hbe, Burst.from_ip_packet]
        exact ⟨le_refl _, le_refl _⟩
      · rw [hcb] at hb
        simp only at hb
        injection hb with hbe
        obtain ⟨h1, h2⟩ := hf key flow hlook b0 hcb
        rw [← hbe]
        exact ⟨le_trans h1 h2, le_refl _⟩
    · rw [if_neg hk] at hl
      exact hf key' flow' hl burst hb

theorem create_bursts_loop_ip_sound (fuel : Nat) (ct it : Time)
    (q : Fifo (FlowKey × Time)) (flows : List (FlowKey × IpFlow))
    (acc : List Burst)
    (hflows : FlowsOK flows ct) (hacc : ∀ b ∈ acc, GoodBurst b) :
    (∀ b ∈ (create_bursts_loop fuel ct it q flows acc).2.2.1, GoodBurst b) ∧
    (∀ key flow,
      alookup (create_bursts_loop fuel ct it q flows acc).2.1 key = some flow →
      ∀ burst, flow.current_burst = some burst →
        ∃ flow0, alookup flows key = some flow0 ∧
          flow0.current_burst = some burst) := by
  induction fuel generalizing q flows acc with
  | zero => exact ⟨hacc, fun key flow hf burst hb => ⟨flow, hf, hb⟩⟩
  | succ fuel ih =>
    rw [create_bursts_loop]
    rcases hpeek : q.peek with _ | ⟨key0, qt0⟩
    · exact ⟨hacc, fun key flow hf burst hb => ⟨flow, hf, hb⟩⟩
    · simp only
      by_cases hlt : ct - qt0 < it
      · rw [if_pos hlt]
        exact ⟨hacc, fun key flow hf burst hb => ⟨flow, hf, hb⟩⟩
      · rw [if_neg hlt]
        rcases hdeq : q.dequeue with _ | ⟨⟨key, qt⟩, q'⟩
        · exact ⟨hacc, fun key flow hf burst hb => ⟨flow, hf, hb⟩⟩
        · simp only
          rcases hlook : alookup flows key with _ | flow
          · exact ⟨hacc, fun key flow hf burst hb => ⟨flow, hf, hb⟩⟩
          · simp only
            by_cases htol : |(Flow.prev_time flow).getD 0 - qt| < 1/10000
            · rw [if_pos htol, ipFlow_send_burst]
              rcases hcb : flow.current_burst with _ | burst0
              · exact ⟨hacc, fun key flow hf burst hb => ⟨flow, hf, hb⟩⟩
              · simp only
                have hflows' :
                    FlowsOK (aupdate flows key { flow with current_burst := none }) ct :=
                  FlowsOK_aupdate_none hflows key _ rfl
                have hacc' :
                    ∀ b ∈ acc ++ [{ burst0 with completion_time := ct }],
                      GoodBurst b := by
                  intro b hbmem
                  rcases List.mem_append.mp hbmem with hmem | hmem
                  · exact hacc b hmem
                  · obtain ⟨h1, h2⟩ := hflows key flow hlook burst0 hcb
                    rw [List.mem_singleton.mp hmem]
                    exact ⟨h1, h2⟩
                obtain ⟨ihA, ihB⟩ := ih q' _ _ hflows' hacc'
                refine ⟨ihA, ?_⟩
                intro key' flow' hf' burst' hb'
                obtain ⟨flow0, hf0, hb0⟩ := ihB key' flow' hf' burst' hb'
                rw [alookup_aupdate] at hf0
                by_cases hk : key' = key
                · rw [if_pos hk] at hf0
                  injection hf0 with he
                  rw [← he] at hb0
                  exact absurd hb0 (by simp)
                · rw [if_neg hk] at hf0
                  exact ⟨flow0, hf0, hb0⟩
            · rw [if_neg htol]
              exact ih q' flows acc hflows hacc

theorem create_bursts_ip_sound (ct it : Time) (q : Fifo (FlowKey × Time))
    (flows : List (FlowKey × IpFlow)) (hflows : FlowsOK flows ct) :
    (∀ b ∈ (create_bursts ct it q flows).2.2.1, GoodBurst b) ∧
    (∀ key flow,
      alookup (create_bursts ct it q flows).2.1 key = some flow →
      ∀ burst, flow.current_burst = some burst →
        ∃ flow0, alookup flows key = some flow0 ∧
          flow0.current_burst = some burst) :=
  create_bursts_loop_ip_sound q.size ct it q flows [] hflows (by simp)

theorem ipRun_outputs_good (inactive_time : Time) (ignore_ports : Bool)
    (hit : 0 < inactive_time) (evs : List IpEvent) (s : IpState)
    (hout : ∀ b ∈ s.outputs, GoodBurst b)
    (hflows : FlowsOK s.flows s.last_time)
    (hmono : timesMono s.last_time evs) :
    ∀ b ∈ (ipRun inactive_time ignore_ports evs s).1.outputs, GoodBurst b := by
  induction evs generalizing s with
  | nil => simpa [ipRun] using hout
  | cons ev evs ih =>
    cases ev with
    | packet p =>
      obtain ⟨hle, hmono'⟩ := hmono
      rw [ipRun]
      have hsweep := create_bursts_ip_sound p.time inactive_time
        s.key_time_queue s.flows (FlowsOK_mono hle hflows)
      rcases hq : create_bursts p.time inactive_time s.key_time_queue s.flows
        with ⟨q, flows, sent, err⟩
      rw [hq] at hsweep
      obtain ⟨hsent, hsurv⟩ := hsweep
      have houts : ∀ b ∈ s.outputs ++ sent, GoodBurst b := by
        intro b hbmem
        rcases List.mem_append.mp hbmem with hmem | hmem
        · exact hout b hmem
        · exact hsent b hmem
      have hflows2 : FlowsOK flows p.time := by
        intro key flow hl burst hb
        obtain ⟨flow0, hf0, hb0⟩ := hsurv key flow hl burst hb
        exact FlowsOK_mono hle hflows key flow0 hf0 burst hb0
      cases err with
      | some e => simpa [ipStep, hq] using houts
      | none =>
        simp only [ipStep, hq]
        exact ih _ houts (FlowsOK_touchIp flows _ p ignore_ports hflows2) hmono'
    | timeout =>
      rw [ipRun]
      have hle : s.last_time ≤ s.last_time + inactive_time := by linarith
      have hsweep := create_bursts_ip_sound (s.last_time + inactive_time)
        inactive_time s.key_time_queue s.flows (FlowsOK_mono hle hflows)
      rcases hq : create_bursts (s.last_time + inactive_time) inactive_time
        s.key_time_queue s.flows with ⟨q, flows, sent, err⟩
      rw [hq] at hsweep
      obtain ⟨hsent, hsurv⟩ := hsweep
      have houts : ∀ b ∈ s.outputs ++ sent, GoodBurst b := by
        intro b hbmem
        rcases List.mem_append.mp hbmem with hmem | hmem
        · exact hout b hmem
        · exact hsent b hmem
      have hflows2 : FlowsOK flows s.last_time := by
        intro key flow hl burst hb
        obtain ⟨flow0, hf0, hb0⟩ := hsurv key flow hl burst hb
        exact hflows key flow0 hf0 burst hb0
      cases err with
      | some e => simpa [ipStep, hq] using houts
      | none =>
        simp only [ipStep, hq]
        exact ih _ houts hflows2 hmono

/-- C7: for every inactivity interval `I > 0` and every event sequence
whose packet timestamps are non-decreasing (and non-negative, as capture
timestamps are), every burst emitted by the wired pipeline satisfies
`end - start ≥ 0` and `completion_time ≥ end`. -/
theorem burst_time_ordering (inactive_time : Time) (ignore_ports : Bool)
    (evs : List IpEvent) (hI : 0 < inactive_time) (hmono : timesMono 0 evs) :
    ∀ b ∈ (ipRun inactive_time ignore_ports evs ipInit).1.outputs,
      0 ≤ b.end_ - b.start ∧ b.end_ ≤ b.completion_time := by
  have h := ipRun_outputs_good inactive_time ignore_ports hI evs ipInit
    (by intro b hb; simp [ipInit] at hb)
    (by intro key flow hl; simp [ipInit, alookup] at hl)
    hmono
  intro b hb
  obtain ⟨h1, h2⟩ := h b hb
  exact ⟨by linarith, h2⟩

theorem burst_time_ordering_witness :
    0 ≤ (Burst.end_ ⟨3, 0, 1, none, none, 0, 1/2, 2, 150⟩
          - Burst.start ⟨3, 0, 1, none, none, 0, 1/2, 2, 150⟩ : Time) ∧
      (Burst.end_ ⟨3, 0, 1, none, none, 0, 1/2, 2, 150⟩ : Time)
        ≤ Burst.completion_time ⟨3, 0, 1, none, none, 0, 1/2, 2, 150⟩ :=
  burst_time_ordering 2 true
    [IpEvent.packet ⟨0, 0, 1, 10, 20, 100⟩,
     IpEvent.packet ⟨1/2, 0, 1, 10, 20, 50⟩,
     IpEvent.packet ⟨3, 0, 1, 10, 20, 80⟩]
    (by norm_num) (by norm_num [timesMono])
    ⟨3, 0, 1, none, none, 0, 1/2, 2, 150⟩
    (by norm_num [ipRun, ipStep, create_bursts, create_bursts_loop, ipInit,
      Fifo.new, Fifo.peek, Fifo.enqueue, Fifo.dequeue, touchIp, alookup,
      aupdate, ipFlowKey, IpFlow.new, IpFlow.add_packet, Burst.from_ip_packet,
      IpFlow.flowInst, Flow.prev_time, Flow.send_burst, abs])

end BurstShark
